import Mathlib

/-!
# Verification of the WikidPad → Markdown transformation engine

Shallow embedding of `Wikidpad2Markdown` from `wikidpad2markdown.py`.
The Python function is a fixed pipeline of `re.sub` rewrites over the whole
text.  Each rewrite is embedded as a scanner over `List Char` that walks the
text position by position (tracking whether the position is at a line start,
for the `re.MULTILINE` anchored patterns) and, at the leftmost match, emits
the replacement and resumes after the matched span, exactly as `re.sub` does.

Python regex details reproduced here:
* `\s` is modelled as the ASCII whitespace characters space, tab, `\n`, `\r`,
  `\x0b`, `\x0c`; `\d` as the ASCII digits (the Unicode extensions of the
  Python classes are not modelled).
* `.` never matches `\n`; `\s`, `\S` and `[^#]` do.
* greedy (`+`, `*`) and lazy (`*?`) repetition including the backtracking
  each concrete pattern can actually perform.
* with `re.MULTILINE`, `^` matches at position 0 and right after a `\n`;
  `$` matches before a `\n` and at the end.
* `str.strip`, `str.split('|')`, `str.splitlines` (ASCII boundaries) and
  `str.replace('\r\n','\n')` are modelled directly.
-/

namespace W2M

/-- ASCII part of Python's `\s` class. -/
def isWs (c : Char) : Bool :=
  c = ' ' || c = '\t' || c = '\n' || c = '\r' || c = '\x0b' || c = '\x0c'

/-- Lazy repetition: consume characters (each rejected by `bad`) up to the
*first* position where `stop` accepts the remaining suffix; `none` when no
such position exists.  This is the semantics of `(.*?)`‑style subpatterns:
`bad` is the character the repetition may not cross, `stop` is the rest of
the regex. -/
def lazyScan (bad : Char → Bool) (stop : List Char → Bool) :
    List Char → Option (List Char × List Char)
  | [] => if stop [] then some ([], []) else none
  | c :: cs =>
    if stop (c :: cs) then some ([], c :: cs)
    else if bad c then none
    else
      match lazyScan bad stop cs with
      | some (g, r) => some (c :: g, r)
      | none => none

/-- One global-substitution pass, as `re.sub` performs it: at every position
(left to right) try the matcher `m`; on a match emit the replacement and
resume directly after the matched span, otherwise copy one character.  `m`
receives the remaining suffix and whether the position is at a line start,
and returns the replacement together with the number of characters matched.
The fuel argument is only a termination device: a call with `fuel ≥ length`
(every use below) never exhausts it, since every step consumes at least one
character of input. -/
def subScanF (m : List Char → Bool → Option (List Char × Nat)) :
    Nat → Bool → List Char → List Char
  | 0, _, l => l
  | _ + 1, _, [] => []
  | fuel + 1, start, c :: cs =>
    match m (c :: cs) start with
    | some (repl, n) =>
      if n = 0 then c :: subScanF m fuel (decide (c = '\n')) cs
      else
        repl ++ subScanF m fuel
          (decide (((c :: cs).take n).getLast? = some '\n'))
          ((c :: cs).drop n)
    | none => c :: subScanF m fuel (decide (c = '\n')) cs

/-- Run one substitution over a whole buffer (position 0 is a line start). -/
def runSub (m : List Char → Bool → Option (List Char × Nat))
    (l : List Char) : List Char :=
  subScanF m l.length true l

/-! ## The individual patterns of the pipeline, in source order -/

/-- Embeds `re.sub(r"^(\++)\s*(.+)$", lambda m: "#"*len(m.group(1)) + " " + m.group(2), ..., re.MULTILINE)`.
`\++` is maximal (shrinking it only helps when the remainder consists solely
of newlines, where the regex backtracks one `+` into `(.+)`); `\s*` is
greedy but must leave a first non-`\n` character for `(.+)`, which then runs
to the end of its line. -/
def mHeading (l : List Char) (start : Bool) : Option (List Char × Nat) :=
  if start then
    let plus := l.takeWhile (fun c => c = '+')
    let k := plus.length
    if k = 0 then none
    else
      let t := l.drop k
      if t.all (fun c => c = '\n') then
        if 2 ≤ k then some (List.replicate (k - 1) '#' ++ [' ', '+'], k)
        else none
      else
        let ws := t.takeWhile isWs
        let u := t.drop ws.length
        let i := if u.isEmpty then
                   ((ws.reverse.dropWhile (fun c => c = '\n')).reverse).length - 1
                 else ws.length
        let g2 := (t.drop i).takeWhile (fun c => c ≠ '\n')
        some (List.replicate k '#' ++ ' ' :: g2, k + i + g2.length)
  else none

/-- Stop condition of the lazy group in `\*\*(.*?)\*\*`: the closing `**`. -/
def boldStop (s : List Char) : Bool :=
  match s with | '*' :: '*' :: _ => true | _ => false

/-- Stop condition of the lazy group in `//(.*?)//`: the closing `//`. -/
def italicStop (s : List Char) : Bool :=
  match s with | '/' :: '/' :: _ => true | _ => false

/-- Stop condition of a lazy group followed by `\]`: a closing bracket. -/
def brStop (s : List Char) : Bool :=
  s.head? = some ']'

/-- Embeds `re.sub(r'\*\*(.*?)\*\*', r'**\1**', ...)` — the replacement rebuilds the
match verbatim. -/
def mBold (l : List Char) (_ : Bool) : Option (List Char × Nat) :=
  match l with
  | '*' :: '*' :: t =>
    match lazyScan (fun c => c = '\n') boldStop t with
    | some (g, _) => some ('*' :: '*' :: g ++ ['*', '*'], 4 + g.length)
    | none => none
  | _ => none

/-- Embeds `re.sub(r'//(.*?)//', r'_\1_', ...)`. -/
def mItalic (l : List Char) (_ : Bool) : Option (List Char × Nat) :=
  match l with
  | '/' :: '/' :: t =>
    match lazyScan (fun c => c = '\n') italicStop t with
    | some (g, _) => some ('_' :: g ++ ['_'], 4 + g.length)
    | none => none
  | _ => none

/-- Embeds `re.sub(r'anchor:\s*(\S+)', r'<a name="\1"></a>', ...)`.  `\s*` is
greedy and cannot usefully backtrack (no whitespace character satisfies
`\S`), so the match needs a non-whitespace character after the maximal
whitespace run. -/
def mAnchor1 (l : List Char) (_ : Bool) : Option (List Char × Nat) :=
  if "anchor:".data.isPrefixOf l then
    let t := l.drop 7
    let ws := t.takeWhile isWs
    let g := (t.drop ws.length).takeWhile (fun c => !(isWs c))
    if g.length = 0 then none
    else some ("<a name=\"".data ++ g ++ "\"></a>".data, 7 + ws.length + g.length)
  else none

/-- Stop condition of the lazy group in `\[(.*?)\]\!(\S+)`: the first `]!`
followed by a non-whitespace character (so that `\S+` can match). -/
def anchorTailStop (s : List Char) : Bool :=
  match s with
  | ']' :: '!' :: c :: _ => !(isWs c)
  | _ => false

/-- Embeds `re.sub(r'\[(.*?)\]\!(\S+)', r'[\1#\2]', ...)`. -/
def mAnchor2 (l : List Char) (_ : Bool) : Option (List Char × Nat) :=
  match l with
  | '[' :: t =>
    match lazyScan (fun c => c = '\n') anchorTailStop t with
    | some (g, r) =>
      let g2 := (r.drop 2).takeWhile (fun c => !(isWs c))
      some ('[' :: g ++ '#' :: g2 ++ [']'], 1 + g.length + 2 + g2.length)
    | none => none
  | _ => none

/-- Continuation of `mLink1` after the lazy address group: `\|(.*?)\]`. -/
def linkTailStop (s : List Char) : Bool :=
  match s with
  | '|' :: u => (lazyScan (fun c => c = '\n') brStop u).isSome
  | _ => false

/-- Embeds `re.sub(r'\[([^#]*?)\|(.*?)\]', r'[\2](\1)', ...)` — the address is the
lazy run of non-`#` characters up to the first `|` whose remainder still
reaches a `]` on the same line. -/
def mLink1 (l : List Char) (_ : Bool) : Option (List Char × Nat) :=
  match l with
  | '[' :: t =>
    match lazyScan (fun c => c = '#') linkTailStop t with
    | some (g1, r) =>
      match r with
      | '|' :: u =>
        match lazyScan (fun c => c = '\n') brStop u with
        | some (g2, _) =>
          some ('[' :: g2 ++ ']' :: '(' :: g1 ++ [')'],
                1 + g1.length + 1 + g2.length + 1)
        | none => none
      | _ => none
    | none => none
  | _ => none

/-- Embeds `re.sub(r'\[([^#]*?)\]', r'[\1]', ...)` — replacement rebuilds the match. -/
def mLink2 (l : List Char) (_ : Bool) : Option (List Char × Nat) :=
  match l with
  | '[' :: t =>
    match lazyScan (fun c => c = '#') brStop t with
    | some (g, _) => some ('[' :: g ++ [']'], 2 + g.length)
    | none => none
  | _ => none

/-- Embeds `re.sub(r'^(\*+)\s+(.*)$', r'\1 \2', ..., re.MULTILINE)`. -/
def mBullet (l : List Char) (start : Bool) : Option (List Char × Nat) :=
  if start then
    let stars := l.takeWhile (fun c => c = '*')
    let k := stars.length
    if k = 0 then none
    else
      let t := l.drop k
      let ws := t.takeWhile isWs
      if ws.length = 0 then none
      else
        let g2 := (t.drop ws.length).takeWhile (fun c => c ≠ '\n')
        some (stars ++ ' ' :: g2, k + ws.length + g2.length)
  else none

/-- Embeds `re.sub(r"^(\s+)([\*\d])", lambda m: " " * (2 * len(m.group(1))//4 - 1) + m.group(2), ..., re.MULTILINE)`.
In Python `" " * n` is empty for `n ≤ 0`, which coincides with truncated
natural subtraction here.  `\s+` is maximal (no whitespace character matches
`[\*\d]`, so it cannot backtrack). -/
def mIndent (l : List Char) (start : Bool) : Option (List Char × Nat) :=
  if start then
    let ws := l.takeWhile isWs
    if ws.length = 0 then none
    else
      match l.drop ws.length with
      | c :: _ =>
        if c = '*' || c.isDigit then
          some (List.replicate (2 * ws.length / 4 - 1) ' ' ++ [c], ws.length + 1)
        else none
      | [] => none
  else none

/-- Embeds `re.sub(r'^----+$', r'---', ..., re.MULTILINE)`. -/
def mHr (l : List Char) (start : Bool) : Option (List Char × Nat) :=
  if start then
    let hs := l.takeWhile (fun c => c = '-')
    if 4 ≤ hs.length && ((l.drop hs.length).head?.getD '\n') = '\n' then
      some ("---".data, hs.length)
    else none
  else none

/-- Embeds `re.sub(r"^(<<\|\s*|>>\s*)\n", r"", ..., re.MULTILINE)`.  The greedy
`\s*` must stop right before a `\n`, so it runs to the last `\n` inside the
maximal whitespace run (and the match fails when there is none). -/
def mFrame (l : List Char) (start : Bool) : Option (List Char × Nat) :=
  if start then
    match l with
    | '<' :: '<' :: '|' :: t =>
      let ws := t.takeWhile isWs
      let wsTrim := (ws.reverse.dropWhile (fun c => c ≠ '\n')).reverse
      if wsTrim.isEmpty then none else some ([], 3 + wsTrim.length)
    | '>' :: '>' :: t =>
      let ws := t.takeWhile isWs
      let wsTrim := (ws.reverse.dropWhile (fun c => c ≠ '\n')).reverse
      if wsTrim.isEmpty then none else some ([], 2 + wsTrim.length)
    | _ => none
  else none

/-- Python `line.split("|")` (all parts, empties kept). -/
def splitOnPipe : List Char → List (List Char)
  | [] => [[]]
  | '|' :: r => [] :: splitOnPipe r
  | c :: r =>
    match splitOnPipe r with
    | [] => [[c]]
    | g :: gs => (c :: g) :: gs

/-- Python `str.strip()` (ASCII whitespace). -/
def pyStrip (l : List Char) : List Char :=
  ((l.dropWhile isWs).reverse.dropWhile isWs).reverse

/-- The replacement of the cell-delimiter substitution:
`"| " + " | ".join(elem.strip() for elem in line.split("|")) + " |"`. -/
def formatRow (line : List Char) : List Char :=
  "| ".data ++ List.intercalate " | ".data ((splitOnPipe line).map pyStrip) ++ " |".data

/-- Embeds `re.sub(r"^(.*\|.*\|.*)$", lambda m: ..., ..., re.MULTILINE)` — any line
with at least two `|` characters is matched whole and reformatted. -/
def mRow (l : List Char) (start : Bool) : Option (List Char × Nat) :=
  if start then
    let line := l.takeWhile (fun c => c ≠ '\n')
    if 2 ≤ line.count '|' then some (formatRow line, line.length)
    else none
  else none

/-- Python `str.splitlines` restricted to the ASCII boundaries
`\r\n`, `\r`, `\n`, `\x0b`, `\x0c` (a trailing boundary produces no final
empty row).  The current row is accumulated in reverse. -/
def splitLinesAux : List Char → List Char → List (List Char)
  | acc, [] => [acc.reverse]
  | acc, '\r' :: '\n' :: r =>
    acc.reverse :: (match r with | [] => [] | _ => splitLinesAux [] r)
  | acc, c :: r =>
    if c = '\n' || c = '\r' || c = '\x0b' || c = '\x0c' then
      acc.reverse :: (match r with | [] => [] | _ => splitLinesAux [] r)
    else splitLinesAux (c :: acc) r

def splitLines (l : List Char) : List (List Char) :=
  match l with
  | [] => []
  | _ => splitLinesAux [] l

/-- The nested function `table_add_header` of `Wikidpad2Markdown`: given the
matched block, returns `"\n".join([rows[0], "| -- " * (rows[0].count("|") - 1) + "|"] + rows[1:])`.
(The matched block always starts with a `|`, so the count is at least one
and the Python subtraction never goes negative.) -/
def table_add_header (blk : List Char) : List Char :=
  match splitLines blk with
  | [] => []
  | r0 :: rs =>
    List.intercalate ['\n']
      (r0 :: ((List.replicate (r0.count '|' - 1) "| -- ".data).flatten ++ ['|']) :: rs)

/-- One repetition unit of `(^\|.*\|\r?\n)+`: a line that starts with `|`,
ends (before its terminating `\n`) with a second `|` or with `|\r`, and is
actually terminated by a `\n`.  Returns the unit length including the `\n`. -/
def headerUnit (l : List Char) : Option Nat :=
  let line := l.takeWhile (fun c => c ≠ '\n')
  if (l.drop line.length).head? = some '\n'
      && line.head? = some '|'
      && ((2 ≤ line.length && line.getLast? = some '|')
          || (3 ≤ line.length && (line.drop (line.length - 2)) = ['|', '\r'])) then
    some (line.length + 1)
  else none

/-- Total length of the maximal run of consecutive header units. -/
def headerRunAux : Nat → List Char → Nat
  | 0, _ => 0
  | fuel + 1, l =>
    match headerUnit l with
    | some n => if n = 0 then 0 else n + headerRunAux fuel (l.drop n)
    | none => 0

/-- Embeds `re.sub(r"(^\|.*\|\r?\n)+", table_add_header, ..., re.M)`. -/
def mHeader (l : List Char) (start : Bool) : Option (List Char × Nat) :=
  if start then
    let n := headerRunAux l.length l
    if n = 0 then none else some (table_add_header (l.take n), n)
  else none

/-- Embeds `re.sub(r'^\s*\*\s*\d+\s*', '', ..., re.MULTILINE)`.  Both `\s*` runs
are maximal (neither `\*` nor `\d` matches a whitespace character, so they
cannot backtrack), as is the trailing `\s*`. -/
def mClean1 (l : List Char) (start : Bool) : Option (List Char × Nat) :=
  if start then
    let w1 := l.takeWhile isWs
    match l.drop w1.length with
    | '*' :: t =>
      let w2 := t.takeWhile isWs
      let t2 := t.drop w2.length
      let d := t2.takeWhile Char.isDigit
      if d.length = 0 then none
      else
        let w3 := (t2.drop d.length).takeWhile isWs
        some ([], w1.length + 1 + w2.length + d.length + w3.length)
    | _ => none
  else none

/-- Embeds `re.sub(r'anchor:', '', ...)`. -/
def mClean2 (l : List Char) (_ : Bool) : Option (List Char × Nat) :=
  if "anchor:".data.isPrefixOf l then some ([], 7) else none

/-- Embeds `re.sub(r'\[.*?\]', '', ...)`. -/
def mClean3 (l : List Char) (_ : Bool) : Option (List Char × Nat) :=
  match l with
  | '[' :: t =>
    match lazyScan (fun c => c = '\n') brStop t with
    | some (g, _) => some ([], 2 + g.length)
    | none => none
  | _ => none

/-- Python `str.replace('\r\n', '\n')`. -/
def replCRLF : List Char → List Char
  | '\r' :: '\n' :: r => '\n' :: replCRLF r
  | c :: r => c :: replCRLF r
  | [] => []

/-- The whole pipeline of `Wikidpad2Markdown` on the character list, in the
exact source order; `flag` is the `remove_remaining_wikidpad` parameter. -/
def w2mCore (l : List Char) (flag : Bool) : List Char :=
  let t1 := runSub mHeading l
  let t2 := runSub mBold t1
  let t3 := runSub mItalic t2
  let t4 := runSub mAnchor1 t3
  let t5 := runSub mAnchor2 t4
  let t6 := runSub mLink1 t5
  let t7 := runSub mLink2 t6
  let t8 := runSub mBullet t7
  let t9 := runSub mIndent t8
  let t10 := runSub mHr t9
  let t11 := runSub mFrame t10
  let t12 := runSub mRow t11
  let t13 := runSub mHeader t12
  let t16 := if flag then runSub mClean3 (runSub mClean2 (runSub mClean1 t13)) else t13
  replCRLF (pyStrip t16)

/-- Embeds `Wikidpad2Markdown(wiki_source, remove_remaining_wikidpad)`. -/
def Wikidpad2Markdown (wiki_source : String) (remove_remaining_wikidpad : Bool) : String :=
  String.mk (w2mCore wiki_source.data remove_remaining_wikidpad)

/-! ## Auxiliary predicates used only in the statements -/

/-- Substring test: some suffix of `l` starts with `pat`. -/
def containsSub (pat : List Char) : List Char → Bool
  | [] => pat.isPrefixOf []
  | c :: cs => pat.isPrefixOf (c :: cs) || containsSub pat cs

/-- No match of the stage‑9 pattern `^(\s+)([\*\d])` anywhere: nowhere does a
whitespace run that starts at a line start (it may span line breaks, since
`\s` matches `\n`) end at a `*` or digit.  `start` tracks whether the
current position is a line start, `active` whether it is preceded by such a
whitespace run. -/
def noIndentAux : Bool → Bool → List Char → Bool
  | _, _, [] => true
  | start, active, c :: cs =>
    if active && (c = '*' || c.isDigit) then false
    else noIndentAux (c = '\n') ((active || start) && isWs c) cs

/-- Characters that none of the rewrite patterns of the pipeline can fire
on: letters, digits and neutral punctuation — in particular none of
`+ * / # [ ] | < > - :` and no `\x0b`/`\x0c`. -/
def cleanChar (c : Char) : Bool :=
  c.isAlpha || c.isDigit ||
    c ∈ ([' ', '\t', '\n', '\r', '.', ',', '!', '?', '(', ')', ';'] : List Char)

/-- Text free of wiki-dialect constructs: every character is clean and no
line starts with whitespace followed by a digit (the one pattern whose
trigger characters are otherwise clean). -/
def CleanText (s : String) : Prop :=
  (∀ c ∈ s.data, cleanChar c = true) ∧ noIndentAux true false s.data = true

/-- Only the two final normalization steps of the pipeline:
`.strip()` followed by `.replace('\r\n', '\n')`. -/
def normalizeOnly (s : String) : String :=
  String.mk (replCRLF (pyStrip s.data))

end W2M

/-! ## Generic facts about the substitution scanner -/

namespace W2M

theorem subScanF_nil (m : List Char → Bool → Option (List Char × Nat))
    (f : Nat) (s : Bool) : subScanF m f s [] = [] := by
  cases f <;> rfl

/-- A substitution whose matcher never fires anywhere in a class of buffers
closed under tails is the identity there. -/
theorem subScanF_id (m : List Char → Bool → Option (List Char × Nat))
    (P : List Char → Prop)
    (htail : ∀ c cs, P (c :: cs) → P cs)
    (hm : ∀ l s, P l → m l s = none) :
    ∀ f s l, P l → subScanF m f s l = l := by
  intro f
  induction f with
  | zero => intro s l _; rfl
  | succ f ih =>
    intro s l hP
    cases l with
    | nil => rfl
    | cons c cs =>
      simp only [subScanF, hm _ _ hP]
      rw [ih _ cs (htail _ _ hP)]

/-- A line-anchored substitution does nothing from a non-line-start position
when the rest of the buffer contains no newline. -/
theorem subScanF_false_anchored (m : List Char → Bool → Option (List Char × Nat))
    (hm : ∀ l, m l false = none) :
    ∀ f l, '\n' ∉ l → subScanF m f false l = l := by
  intro f
  induction f with
  | zero => intro l _; rfl
  | succ f ih =>
    intro l hl
    cases l with
    | nil => rfl
    | cons c cs =>
      have hc : c ≠ '\n' := fun h => hl (h ▸ List.mem_cons_self c cs)
      simp only [subScanF, hm, decide_eq_false hc]
      rw [ih cs (fun h => hl (List.mem_cons_of_mem _ h))]

/-- For a matcher that ignores the line-start flag, the scan result does not
depend on the flag nor on the fuel, as long as the fuel covers the buffer. -/
theorem subScanF_congr (m : List Char → Bool → Option (List Char × Nat))
    (hm : ∀ l a b, m l a = m l b) :
    ∀ f₁ f₂ s₁ s₂ l, l.length ≤ f₁ → l.length ≤ f₂ →
      subScanF m f₁ s₁ l = subScanF m f₂ s₂ l := by
  intro f₁
  induction f₁ with
  | zero =>
    intro f₂ s₁ s₂ l h₁ _
    have : l = [] := List.eq_nil_of_length_eq_zero (Nat.le_zero.mp h₁)
    subst this
    rw [subScanF_nil, subScanF_nil]
  | succ f ih =>
    intro f₂ s₁ s₂ l h₁ h₂
    cases l with
    | nil => rw [subScanF_nil, subScanF_nil]
    | cons c cs =>
      cases f₂ with
      | zero => simp at h₂
      | succ f₂ =>
        simp only [List.length_cons] at h₁ h₂
        have hcs₁ : cs.length ≤ f := Nat.le_of_succ_le_succ h₁
        have hcs₂ : cs.length ≤ f₂ := Nat.le_of_succ_le_succ h₂
        simp only [subScanF]
        rw [hm (c :: cs) s₁ s₂]
        cases hmv : m (c :: cs) s₂ with
        | none => rw [ih f₂ (decide (c = '\n')) (decide (c = '\n')) cs hcs₁ hcs₂]
        | some v =>
          obtain ⟨repl, n⟩ := v
          by_cases hn : n = 0
          · subst hn
            rw [ih f₂ (decide (c = '\n')) (decide (c = '\n')) cs hcs₁ hcs₂]
            simp
          · simp only [if_neg hn]
            have hlen : ((c :: cs).drop n).length ≤ f := by
              simp only [List.length_drop, List.length_cons]
              omega
            have hlen₂ : ((c :: cs).drop n).length ≤ f₂ := by
              simp only [List.length_drop, List.length_cons]
              omega
            rw [ih f₂ (decide (((c :: cs).take n).getLast? = some '\n'))
                (decide (((c :: cs).take n).getLast? = some '\n')) _ hlen hlen₂]

end W2M

/-! ## Each pattern fails on buffers lacking its trigger character -/

namespace W2M

theorem head?_mem {l : List Char} {a : Char} (h : l.head? = some a) : a ∈ l := by
  cases l with
  | nil => simp at h
  | cons c cs => simp at h; simp [h]

theorem takeWhile_append_cons (p : Char → Bool) (a : List Char) (c : Char) (r : List Char)
    (ha : ∀ x ∈ a, p x) (hc : ¬ p c) :
    (a ++ c :: r).takeWhile p = a ∧ (a ++ c :: r).dropWhile p = c :: r := by
  induction a with
  | nil => simp [List.takeWhile_cons_of_neg hc, List.dropWhile_cons_of_neg hc]
  | cons x xs ih =>
    have hx : p x := ha x (List.mem_cons_self _ _)
    have h2 := ih (fun y hy => ha y (List.mem_cons_of_mem _ hy))
    simp [List.takeWhile_cons_of_pos hx, List.dropWhile_cons_of_pos hx, h2.1, h2.2]

theorem drop_length_takeWhile (p : Char → Bool) (l : List Char) :
    l.drop (l.takeWhile p).length = l.dropWhile p := by
  induction l with
  | nil => rfl
  | cons c cs ih =>
    by_cases hc : p c
    · simp [List.takeWhile_cons_of_pos hc, List.dropWhile_cons_of_pos hc, ih]
    · simp [List.takeWhile_cons_of_neg hc, List.dropWhile_cons_of_neg hc]

theorem mHeading_none {l : List Char} (h : '+' ∉ l) (s : Bool) : mHeading l s = none := by
  cases s with
  | false => rfl
  | true =>
    cases l with
    | nil => rfl
    | cons c cs =>
      have hc : c ≠ '+' := fun hh => h (by simp [hh])
      simp [mHeading, List.takeWhile_cons, hc]

theorem mBold_none {l : List Char} (h : '*' ∉ l) (s : Bool) : mBold l s = none := by
  rw [mBold.eq_def]
  split
  · simp at h
  · rfl

theorem mItalic_none {l : List Char} (h : '/' ∉ l) (s : Bool) : mItalic l s = none := by
  rw [mItalic.eq_def]
  split
  · simp at h
  · rfl

theorem mAnchor1_none {l : List Char} (h : ':' ∉ l) (s : Bool) : mAnchor1 l s = none := by
  have hp : "anchor:".data.isPrefixOf l = false := by
    rw [Bool.eq_false_iff]
    intro hpre
    exact h ((List.isPrefixOf_iff_prefix.mp hpre).subset (by decide))
  simp [mAnchor1, hp]

theorem mAnchor2_none {l : List Char} (h : '[' ∉ l) (s : Bool) : mAnchor2 l s = none := by
  rw [mAnchor2.eq_def]
  split
  · simp at h
  · rfl

theorem mLink1_none {l : List Char} (h : '[' ∉ l) (s : Bool) : mLink1 l s = none := by
  rw [mLink1.eq_def]
  split
  · simp at h
  · rfl

theorem mLink2_none {l : List Char} (h : '[' ∉ l) (s : Bool) : mLink2 l s = none := by
  rw [mLink2.eq_def]
  split
  · simp at h
  · rfl

theorem mClean3_none {l : List Char} (h : '[' ∉ l) (s : Bool) : mClean3 l s = none := by
  rw [mClean3.eq_def]
  split
  · simp at h
  · rfl

theorem mClean2_none {l : List Char} (h : ':' ∉ l) (s : Bool) : mClean2 l s = none := by
  have hp : "anchor:".data.isPrefixOf l = false := by
    rw [Bool.eq_false_iff]
    intro hpre
    exact h ((List.isPrefixOf_iff_prefix.mp hpre).subset (by decide))
  simp [mClean2, hp]

theorem mBullet_none {l : List Char} (h : '*' ∉ l) (s : Bool) : mBullet l s = none := by
  cases s with
  | false => rfl
  | true =>
    cases l with
    | nil => rfl
    | cons c cs =>
      have hc : c ≠ '*' := fun hh => h (by simp [hh])
      simp [mBullet, List.takeWhile_cons, hc]

theorem mHr_none {l : List Char} (h : '-' ∉ l) (s : Bool) : mHr l s = none := by
  cases s with
  | false => rfl
  | true =>
    cases l with
    | nil => rfl
    | cons c cs =>
      have hc : c ≠ '-' := fun hh => h (by simp [hh])
      simp [mHr, List.takeWhile_cons, hc]

theorem mFrame_none {l : List Char} (hlt : '<' ∉ l) (hgt : '>' ∉ l) (s : Bool) :
    mFrame l s = none := by
  cases s with
  | false => rfl
  | true =>
    rw [mFrame.eq_def]
    simp only [if_true]
    split
    · simp at hlt
    · simp at hgt
    · rfl

theorem mClean1_none {l : List Char} (h : '*' ∉ l) (s : Bool) : mClean1 l s = none := by
  cases s with
  | false => rfl
  | true =>
    rw [mClean1.eq_def]
    simp only [if_true]
    split
    · next heq =>
      exfalso
      apply h
      rw [drop_length_takeWhile] at heq
      have : '*' ∈ l.dropWhile isWs := by rw [heq]; exact List.mem_cons_self _ _
      exact (List.dropWhile_sublist _).subset this
    · rfl

theorem mRow_none {l : List Char} (h : '|' ∉ l) (s : Bool) : mRow l s = none := by
  cases s with
  | false => rfl
  | true =>
    have hcnt : ∀ p : Char → Bool, (l.takeWhile p).count '|' = 0 := by
      intro p
      apply Nat.eq_zero_of_le_zero
      calc (l.takeWhile p).count '|'
          ≤ l.count '|' := (List.takeWhile_sublist _).count_le _
        _ = 0 := List.count_eq_zero.mpr h
    simp [mRow, hcnt]

theorem headerUnit_none {l : List Char} (h : '|' ∉ l) : headerUnit l = none := by
  have hhd : ¬ ((l.takeWhile (fun c => c ≠ '\n')).head? = some '|') := by
    intro hh
    exact h ((List.takeWhile_sublist _).subset (head?_mem hh))
  simp only [headerUnit]
  rw [if_neg]
  simp only [Bool.and_eq_true, decide_eq_true_eq]
  intro hc
  exact hhd hc.1.2

theorem headerRunAux_zero {l : List Char} (h : headerUnit l = none) (f : Nat) :
    headerRunAux f l = 0 := by
  cases f with
  | zero => rfl
  | succ f => simp [headerRunAux, h]

theorem mHeader_none {l : List Char} (h : '|' ∉ l) (s : Bool) : mHeader l s = none := by
  cases s with
  | false => rfl
  | true => simp [mHeader, headerRunAux_zero (headerUnit_none h)]

end W2M

/-! ## Identity of the indentation stage under `noIndentAux`, and of the
final normalization steps under head/last conditions -/

namespace W2M

theorem noIndentAux_dropWhile : ∀ (m : List Char) (s : Bool),
    noIndentAux s true m = true →
    ∀ d ds, m.dropWhile isWs = d :: ds → (d = '*' || d.isDigit) = false := by
  intro m
  induction m with
  | nil => intro s _ d ds hd; simp at hd
  | cons c cs ih =>
    intro s h d ds hd
    rw [noIndentAux] at h
    by_cases hcd : (decide (c = '*') || c.isDigit) = true
    · simp [hcd] at h
    · simp only [Bool.true_and, hcd, if_false] at h
      by_cases hw : isWs c = true
      · rw [List.dropWhile_cons_of_pos hw] at hd
        rw [Bool.or_eq_true] at hcd
        push_neg at hcd
        simp only [Bool.true_or, Bool.true_and, hw, if_true] at h
        exact ih _ h d ds hd
      · rw [List.dropWhile_cons_of_neg hw] at hd
        cases hd
        simpa using hcd

theorem subScanF_mIndent_id : ∀ (f : Nat) (s a : Bool) (l : List Char),
    noIndentAux s a l = true → subScanF mIndent f s l = l := by
  intro f
  induction f with
  | zero => intro s a l _; rfl
  | succ f ih =>
    intro s a l h
    cases l with
    | nil => rfl
    | cons c cs =>
      rw [noIndentAux] at h
      by_cases hat : (a && (decide (c = '*') || c.isDigit)) = true
      · simp [hat] at h
      · simp only [hat, if_false] at h
        have hnone : mIndent (c :: cs) s = none := by
          cases s with
          | false => rfl
          | true =>
            rw [mIndent.eq_def]
            simp only [if_true]
            by_cases hw : isWs c = true
            · have hws : (c :: cs).takeWhile isWs = c :: cs.takeWhile isWs :=
                List.takeWhile_cons_of_pos hw
              rw [drop_length_takeWhile, List.dropWhile_cons_of_pos hw]
              cases hdw : cs.dropWhile isWs with
              | nil => simp [hws, hdw]
              | cons d ds =>
                have hact : noIndentAux (decide (c = '\n')) true cs = true := by
                  simpa [hw] using h
                have hd := noIndentAux_dropWhile cs _ hact d ds hdw
                simp only [hws, hdw]
                simp [hd]
            · have hws : (c :: cs).takeWhile isWs = [] :=
                List.takeWhile_cons_of_neg hw
              simp [hws]
        simp only [subScanF, hnone]
        have ih2 := ih (decide (c = '\n')) ((a || s) && isWs c) cs h
        rw [ih2]

theorem pyStrip_id {l : List Char}
    (h1 : ∀ c, l.head? = some c → isWs c = false)
    (h2 : ∀ c, l.getLast? = some c → isWs c = false) : pyStrip l = l := by
  cases l with
  | nil => rfl
  | cons c cs =>
    have hc := h1 c rfl
    rw [pyStrip, List.dropWhile_cons_of_neg (by simp [hc])]
    cases hrev : (c :: cs).reverse with
    | nil => simp at hrev
    | cons d ds =>
      have hd : (c :: cs).getLast? = some d := by
        rw [← List.head?_reverse, hrev]; rfl
      have hdw := h2 d hd
      have hdrop : List.dropWhile isWs (d :: ds) = d :: ds :=
        List.dropWhile_cons_of_neg (by simp [hdw])
      rw [hdrop, ← hrev, List.reverse_reverse]

theorem replCRLF_id : ∀ {l : List Char}, '\r' ∉ l → replCRLF l = l := by
  intro l h
  induction l with
  | nil => rfl
  | cons c cs ih =>
    rw [replCRLF.eq_def]
    split
    · next r heq =>
      rw [heq] at h
      simp at h
    · next c' r heq =>
      injection heq with e1 e2
      subst e1; subst e2
      rw [ih (fun hm => h (List.mem_cons_of_mem _ hm))]
    · next heq => simp at heq

end W2M

/-! ## Clean-text identity of the whole pipeline -/

namespace W2M

theorem not_mem_of_clean {l : List Char} (h : ∀ c ∈ l, cleanChar c = true)
    {x : Char} (hx : cleanChar x = false) : x ∉ l := by
  intro hm
  rw [h x hm] at hx
  cases hx

/-- Packaged form of `subScanF_id` for a single forbidden character. -/
theorem runSub_id_of_not_mem (m : List Char → Bool → Option (List Char × Nat))
    (x : Char) (hm : ∀ (l : List Char) (s : Bool), x ∉ l → m l s = none)
    {l : List Char} (h : x ∉ l) : runSub m l = l :=
  subScanF_id m (fun t => x ∉ t)
    (fun _ _ hP hmem => hP (List.mem_cons_of_mem _ hmem)) hm _ _ _ h

/-- C5: on text free of wiki-dialect constructs (every character clean, no
line indented before a digit), the transform — with either flag — acts as
the identity up to the final whole-document strip and CRLF→LF
normalization. -/
theorem C5_clean_text_identity (s : String) (b : Bool) (h : CleanText s) :
    Wikidpad2Markdown s b = normalizeOnly s := by
  obtain ⟨hchar, hind⟩ := h
  have hplus : '+' ∉ s.data := not_mem_of_clean hchar (by decide)
  have hstar : '*' ∉ s.data := not_mem_of_clean hchar (by decide)
  have hslash : '/' ∉ s.data := not_mem_of_clean hchar (by decide)
  have hcolon : ':' ∉ s.data := not_mem_of_clean hchar (by decide)
  have hlbr : '[' ∉ s.data := not_mem_of_clean hchar (by decide)
  have hdash : '-' ∉ s.data := not_mem_of_clean hchar (by decide)
  have hlt : '<' ∉ s.data := not_mem_of_clean hchar (by decide)
  have hgt : '>' ∉ s.data := not_mem_of_clean hchar (by decide)
  have hpipe : '|' ∉ s.data := not_mem_of_clean hchar (by decide)
  have e1 : runSub mHeading s.data = s.data :=
    runSub_id_of_not_mem _ _ (fun _ s' h' => mHeading_none h' s') hplus
  have e2 : runSub mBold s.data = s.data :=
    runSub_id_of_not_mem _ _ (fun _ s' h' => mBold_none h' s') hstar
  have e3 : runSub mItalic s.data = s.data :=
    runSub_id_of_not_mem _ _ (fun _ s' h' => mItalic_none h' s') hslash
  have e4 : runSub mAnchor1 s.data = s.data :=
    runSub_id_of_not_mem _ _ (fun _ s' h' => mAnchor1_none h' s') hcolon
  have e5 : runSub mAnchor2 s.data = s.data :=
    runSub_id_of_not_mem _ _ (fun _ s' h' => mAnchor2_none h' s') hlbr
  have e6 : runSub mLink1 s.data = s.data :=
    runSub_id_of_not_mem _ _ (fun _ s' h' => mLink1_none h' s') hlbr
  have e7 : runSub mLink2 s.data = s.data :=
    runSub_id_of_not_mem _ _ (fun _ s' h' => mLink2_none h' s') hlbr
  have e8 : runSub mBullet s.data = s.data :=
    runSub_id_of_not_mem _ _ (fun _ s' h' => mBullet_none h' s') hstar
  have e9 : runSub mIndent s.data = s.data :=
    subScanF_mIndent_id _ true false s.data hind
  have e10 : runSub mHr s.data = s.data :=
    runSub_id_of_not_mem _ _ (fun _ s' h' => mHr_none h' s') hdash
  have e11 : runSub mFrame s.data = s.data :=
    subScanF_id mFrame (fun t => '<' ∉ t ∧ '>' ∉ t)
      (fun _ _ hP => ⟨fun hmem => hP.1 (List.mem_cons_of_mem _ hmem),
                      fun hmem => hP.2 (List.mem_cons_of_mem _ hmem)⟩)
      (fun _ s' h' => mFrame_none h'.1 h'.2 s') _ _ _ ⟨hlt, hgt⟩
  have e12 : runSub mRow s.data = s.data :=
    runSub_id_of_not_mem _ _ (fun _ s' h' => mRow_none h' s') hpipe
  have e13 : runSub mHeader s.data = s.data :=
    runSub_id_of_not_mem _ _ (fun _ s' h' => mHeader_none h' s') hpipe
  have ec1 : runSub mClean1 s.data = s.data :=
    runSub_id_of_not_mem _ _ (fun _ s' h' => mClean1_none h' s') hstar
  have ec2 : runSub mClean2 s.data = s.data :=
    runSub_id_of_not_mem _ _ (fun _ s' h' => mClean2_none h' s') hcolon
  have ec3 : runSub mClean3 s.data = s.data :=
    runSub_id_of_not_mem _ _ (fun _ s' h' => mClean3_none h' s') hlbr
  show String.mk (w2mCore s.data b) = normalizeOnly s
  cases b with
  | false =>
    simp only [w2mCore, e1, e2, e3, e4, e5, e6, e7, e8, e9, e10, e11, e12, e13,
      Bool.false_eq_true, if_false]
    rfl
  | true =>
    simp only [w2mCore, e1, e2, e3, e4, e5, e6, e7, e8, e9, e10, e11, e12, e13,
      ec1, ec2, ec3, if_true]
    rfl

/-- Witness for C5 at a concrete clean text containing a CRLF line break and
surrounding whitespace. -/
theorem C5_clean_text_identity_witness :
    Wikidpad2Markdown " hello, world.\r\nsecond line. " false
      = "hello, world.\nsecond line." := by
  have h := C5_clean_text_identity " hello, world.\r\nsecond line. " false
    ⟨by decide, by decide⟩
  rw [h]
  decide

end W2M

/-! ## Claims settled by direct evaluation, totality and determinism -/

namespace W2M

/-- C1: for every input string (including the empty string) and every flag,
`Wikidpad2Markdown` is defined and returns a string — the embedding is a
total function, so no input raises; on the empty string it returns the empty
string. -/
theorem C1_total_never_raises :
    (∀ (source : String) (strip_residual : Bool),
      ∃ output : String, Wikidpad2Markdown source strip_residual = output) ∧
    (∀ strip_residual : Bool, Wikidpad2Markdown "" strip_residual = "") := by
  constructor
  · intro source strip_residual
    exact ⟨_, rfl⟩
  · intro strip_residual
    cases strip_residual <;> rfl

/-- C8: the transform is a deterministic, referentially transparent function
of its two arguments: equal inputs give equal outputs (the embedding takes
no other state). -/
theorem C8_deterministic (s₁ s₂ : String) (b₁ b₂ : Bool)
    (hs : s₁ = s₂) (hb : b₁ = b₂) :
    Wikidpad2Markdown s₁ b₁ = Wikidpad2Markdown s₂ b₂ := by
  rw [hs, hb]

/-- Witness for C8 at a concrete repeated call. -/
theorem C8_deterministic_witness :
    Wikidpad2Markdown "+a\n[x|y]" true = Wikidpad2Markdown "+a\n[x|y]" true :=
  C8_deterministic "+a\n[x|y]" "+a\n[x|y]" true true rfl rfl

/-- C7: for the input holding the line `anchor: foo` and the span `[bar]`,
the `strip_residual = true` run leaves neither an `anchor:` token nor the
span `[bar]`, while the `strip_residual = false` run keeps the generated
anchor tag and the bracket form intact. -/
theorem C7_residual_toggle :
    (containsSub "anchor:".data (Wikidpad2Markdown "anchor: foo\n[bar]" true).data = false
      ∧ containsSub "[bar]".data (Wikidpad2Markdown "anchor: foo\n[bar]" true).data = false)
    ∧ (Wikidpad2Markdown "anchor: foo\n[bar]" false = "<a name=\"foo\"></a>\n[bar]"
      ∧ containsSub "<a name=\"foo\"></a>".data
          (Wikidpad2Markdown "anchor: foo\n[bar]" false).data = true
      ∧ containsSub "[bar]".data (Wikidpad2Markdown "anchor: foo\n[bar]" false).data = true) := by
  decide

/-- C10: the table header-synthesis replacement drops the newline that
terminated the matched run, so the following line is concatenated onto the
synthesized separator: `"a|b|c\nX"` yields exactly the two lines
`"| a | b | c |"` and `"| -- | -- | -- |X"`. -/
theorem C10_header_newline_lost :
    Wikidpad2Markdown "a|b|c\nX" false = "| a | b | c |\n| -- | -- | -- |X" := by
  decide

/-- C4 counterexample: on the two-line input without a trailing newline the
transform does NOT produce three lines — the separator and the second row
are concatenated, refuting the claim as stated. -/
theorem C4_counterexample :
    Wikidpad2Markdown "a|b|c\nd|e|f" false
        = "| a | b | c |\n| -- | -- | -- || d | e | f |"
    ∧ Wikidpad2Markdown "a|b|c\nd|e|f" false
        ≠ "| a | b | c |\n| -- | -- | -- |\n| d | e | f |" := by
  decide

/-- C4 amended: when the two-line input is terminated by a newline, the
transform produces exactly the claimed three lines: reformatted header,
synthesized `| -- | -- | -- |` separator, reformatted data row. -/
theorem C4_amended_header_synthesis :
    Wikidpad2Markdown "a|b|c\nd|e|f\n" false
      = "| a | b | c |\n| -- | -- | -- |\n| d | e | f |" := by
  decide

/-- C9 counterexample: a piped link whose address contains an earlier-stage
construct (italic `//x//`) does not survive as `(address)`: the italic stage
rewrites the address first, so the claim as stated (for every address
without `#`, `|`, `]`) fails. -/
theorem C9_counterexample :
    Wikidpad2Markdown "[//x//|t]" true = "(_x_)"
    ∧ ("(_x_)" : String) ≠ "(//x//)" := by
  decide

/-- C2 counterexample: a line indented by six whitespace characters before a
`*` is re-indented to `2*6//4 - 1 = 2` spaces by the stage, not the claimed
`2 * floor(6/4) - 1 = 1`. -/
theorem C2_counterexample :
    runSub mIndent "      *a".data = "  *a".data
    ∧ "  *a".data ≠ " *a".data := by
  decide

/-- C3 counterexample: on `[a|b|c]` the link stage produces `[b|c](a)` — the
address ends at the FIRST `|`, not at the last one as claimed (which would
give `[c](a|b)`). -/
theorem C3_counterexample :
    runSub mLink2 (runSub mLink1 "[a|b|c]".data) = "[b|c](a)".data
    ∧ "[b|c](a)".data ≠ "[c](a|b)".data := by
  decide

end W2M

/-! ## The indentation-normalization arithmetic (C2, amended) -/

namespace W2M

theorem isWs_cases {c : Char} (h : isWs c = true) :
    c = ' ' ∨ c = '\t' ∨ c = '\n' ∨ c = '\r' ∨ c = '\x0b' ∨ c = '\x0c' := by
  simpa [isWs, or_assoc] using h

theorem trig_not_ws {c : Char} (hc : (decide (c = '*') || c.isDigit) = true) :
    isWs c = false := by
  rcases (by simpa using hc : c = '*' ∨ c.isDigit = true) with h | h
  · subst h
    rfl
  · rw [Bool.eq_false_iff]
    intro hws
    rcases isWs_cases hws with rfl | rfl | rfl | rfl | rfl | rfl <;>
      exact absurd h (by decide)

theorem subScanF_cons_match (m : List Char → Bool → Option (List Char × Nat))
    (f : Nat) (s : Bool) (c : Char) (cs : List Char)
    (repl : List Char) (n : Nat) (hm : m (c :: cs) s = some (repl, n)) (hn : n ≠ 0) :
    subScanF m (f + 1) s (c :: cs)
      = repl ++ subScanF m f (decide (((c :: cs).take n).getLast? = some '\n'))
          ((c :: cs).drop n) := by
  simp only [subScanF, hm, if_neg hn]

/-- C2 (amended): for a single-line buffer starting with a whitespace run of
length `w ≥ 1` followed by a `*` or a digit, the indentation stage replaces
the run by `2*w//4 - 1` spaces (Python floor division of `2*w` by 4 first,
then minus one, empty when that is not positive) and leaves the remainder of
the line unchanged.  The spec's reading `2 * floor(w/4) - 1` differs at
`w ≡ 2, 3 (mod 4)`. -/
theorem C2_amended_indent_width (ws : List Char) (c : Char) (rest : List Char)
    (hws : ∀ x ∈ ws, isWs x = true) (hw1 : 1 ≤ ws.length)
    (hc : (decide (c = '*') || c.isDigit) = true) (hrest : '\n' ∉ rest) :
    runSub mIndent (ws ++ c :: rest)
      = List.replicate (2 * ws.length / 4 - 1) ' ' ++ c :: rest := by
  have hcws : isWs c = false := trig_not_ws hc
  have hcnl : c ≠ '\n' := by
    intro hcc
    rw [hcc] at hcws
    exact absurd hcws (by decide)
  have htk := takeWhile_append_cons isWs ws c rest hws (by simp [hcws])
  have hmatch : mIndent (ws ++ c :: rest) true
      = some (List.replicate (2 * ws.length / 4 - 1) ' ' ++ [c], ws.length + 1) := by
    rw [mIndent.eq_def]
    simp only [if_true, htk.1, List.drop_left]
    have : ¬ ws.length = 0 := by omega
    simp [this, hc]
  have hassoc : ws ++ c :: rest = (ws ++ [c]) ++ rest := by simp
  cases hwsl : ws with
  | nil => rw [hwsl] at hw1; simp at hw1
  | cons w ws' =>
    rw [← hwsl]
    have hlen : (ws ++ c :: rest).length = (ws'.length + 1 + rest.length) + 1 := by
      rw [hwsl]; simp; omega
    have hcons : ws ++ c :: rest = w :: (ws' ++ c :: rest) := by rw [hwsl]; rfl
    rw [runSub, hlen, hcons]
    rw [subScanF_cons_match mIndent _ true w (ws' ++ c :: rest)
      (List.replicate (2 * ws.length / 4 - 1) ' ' ++ [c]) (ws.length + 1)
      (by rw [← hcons, hmatch]) (by omega)]
    rw [← hcons]
    have htake : (ws ++ c :: rest).take (ws.length + 1) = ws ++ [c] := by
      rw [hassoc]
      have : ws.length + 1 = (ws ++ [c]).length := by simp
      rw [this, List.take_left]
    have hdrop : (ws ++ c :: rest).drop (ws.length + 1) = rest := by
      rw [hassoc]
      have : ws.length + 1 = (ws ++ [c]).length := by simp
      rw [this, List.drop_left]
    rw [htake, hdrop, List.getLast?_concat]
    have hflag : decide ((some c : Option Char) = some '\n') = false := by
      simp [hcnl]
    rw [hflag]
    rw [subScanF_false_anchored mIndent (fun _ => rfl) _ rest hrest]
    simp

/-- Witness for the amended C2 at `w = 4`. -/
theorem C2_amended_indent_width_witness :
    runSub mIndent "    *a".data = " *a".data := by
  have h := C2_amended_indent_width [' ', ' ', ' ', ' '] '*' ['a']
    (by decide) (by decide) (by decide) (by decide)
  have e1 : "    *a".data = [' ', ' ', ' ', ' '] ++ '*' :: ['a'] := by decide
  rw [e1, h]
  decide

end W2M

/-! ## Heading depth (C6) -/

namespace W2M

theorem noIndentAux_no_nl : ∀ (l : List Char), '\n' ∉ l →
    noIndentAux false false l = true := by
  intro l
  induction l with
  | nil => intro _; rfl
  | cons c cs ih =>
    intro h
    have hc : c ≠ '\n' := fun hh => h (by simp [hh])
    rw [noIndentAux]
    simp only [Bool.false_and, Bool.false_or, if_false]
    rw [decide_eq_false hc]
    exact ih (fun hm => h (List.mem_cons_of_mem _ hm))

theorem noIndentAux_head_not_ws {c : Char} {cs : List Char} (hc : isWs c = false)
    (hnl : '\n' ∉ c :: cs) : noIndentAux true false (c :: cs) = true := by
  rw [noIndentAux]
  simp only [Bool.false_and, Bool.false_or, Bool.true_and, if_false, hc,
    Bool.and_false]
  have hcn : c ≠ '\n' := fun hh => hnl (by simp [hh])
  rw [decide_eq_false hcn]
  exact noIndentAux_no_nl cs (fun hm => hnl (List.mem_cons_of_mem _ hm))

theorem not_mem_hashTitle (x : Char) (hx1 : x ≠ '#') (hx2 : x ∉ " Title".data)
    (n : Nat) : x ∉ List.replicate n '#' ++ " Title".data := by
  intro hm
  rcases List.mem_append.mp hm with h | h
  · exact hx1 (List.eq_of_mem_replicate h)
  · exact hx2 h

theorem mHeading_plusTitle (n : Nat) (hn : 1 ≤ n) :
    mHeading (List.replicate n '+' ++ " Title".data) true
      = some (List.replicate n '#' ++ ' ' :: "Title".data, n + 6) := by
  have hta : ∀ x ∈ List.replicate n '+', (fun c => decide (c = '+')) x = true := by
    intro x hx
    simp [List.eq_of_mem_replicate hx]
  have hsp : ¬ ((fun c => decide (c = '+')) ' ' = true) := by decide
  have htk : (List.replicate n '+' ++ " Title".data).takeWhile (fun c => decide (c = '+'))
      = List.replicate n '+' := by
    rw [show (" Title".data) = ' ' :: "Title".data from rfl]
    exact (takeWhile_append_cons _ _ _ _ hta hsp).1
  have hdrop : (List.replicate n '+' ++ " Title".data).drop n = " Title".data := by
    have h2 := List.drop_left (List.replicate n '+') " Title".data
    rwa [List.length_replicate] at h2
  have hn0 : ¬ n = 0 := by omega
  rw [mHeading.eq_def]
  simp only [if_true, htk, List.length_replicate, hdrop, hn0, if_false]
  have ew : List.takeWhile isWs [' ', 'T', 'i', 't', 'l', 'e'] = [' '] := rfl
  simp [ew]
  try omega

/-- C6: for every `n ≥ 1` and either flag, the single-line input
`"+"*n ++ " Title"` transforms to `"#"*n ++ " Title"`: heading depth equals
the count of leading `+`. -/
theorem C6_heading_depth (n : Nat) (hn : 1 ≤ n) (b : Bool) :
    Wikidpad2Markdown (String.mk (List.replicate n '+' ++ " Title".data)) b
      = String.mk (List.replicate n '#' ++ " Title".data) := by
  have hlen : (List.replicate n '+' ++ " Title".data).length = (n + 5) + 1 := by
    simp
  have hstage1 : runSub mHeading (List.replicate n '+' ++ " Title".data)
      = List.replicate n '#' ++ " Title".data := by
    obtain ⟨n', rfl⟩ : ∃ n', n = n' + 1 := ⟨n - 1, by omega⟩
    have hcons : List.replicate (n' + 1) '+' ++ " Title".data
        = '+' :: (List.replicate n' '+' ++ " Title".data) := by
      rw [List.replicate_succ]
      rfl
    rw [runSub, hlen, hcons]
    rw [subScanF_cons_match mHeading _ true _ _ _ _
      (by rw [← hcons]; exact mHeading_plusTitle _ (by omega)) (by omega)]
    rw [← hcons]
    have htake : (List.replicate (n' + 1) '+' ++ " Title".data).take (n' + 1 + 6)
        = List.replicate (n' + 1) '+' ++ " Title".data := by
      rw [show n' + 1 + 6 = (List.replicate (n' + 1) '+' ++ " Title".data).length from by
        rw [hlen]]
      exact List.take_length _
    have hdrop : (List.replicate (n' + 1) '+' ++ " Title".data).drop (n' + 1 + 6) = [] := by
      rw [show n' + 1 + 6 = (List.replicate (n' + 1) '+' ++ " Title".data).length from by
        rw [hlen]]
      exact List.drop_length _
    have hgl : (List.replicate (n' + 1) '+' ++ " Title".data).getLast? = some 'e' := by
      rw [List.getLast?_append]
      rfl
    rw [htake, hdrop, hgl, subScanF_nil]
    simp
  have hmem : ∀ x : Char, x ≠ '#' → x ∉ " Title".data →
      x ∉ List.replicate n '#' ++ " Title".data :=
    fun x h1 h2 => not_mem_hashTitle x h1 h2 n
  have hnl : '\n' ∉ List.replicate n '#' ++ " Title".data :=
    hmem '\n' (by decide) (by decide)
  have e2 : runSub mBold (List.replicate n '#' ++ " Title".data) = _ :=
    runSub_id_of_not_mem _ _ (fun _ s' h' => mBold_none h' s') (hmem '*' (by decide) (by decide))
  have e3 : runSub mItalic (List.replicate n '#' ++ " Title".data) = _ :=
    runSub_id_of_not_mem _ _ (fun _ s' h' => mItalic_none h' s') (hmem '/' (by decide) (by decide))
  have e4 : runSub mAnchor1 (List.replicate n '#' ++ " Title".data) = _ :=
    runSub_id_of_not_mem _ _ (fun _ s' h' => mAnchor1_none h' s') (hmem ':' (by decide) (by decide))
  have e5 : runSub mAnchor2 (List.replicate n '#' ++ " Title".data) = _ :=
    runSub_id_of_not_mem _ _ (fun _ s' h' => mAnchor2_none h' s') (hmem '[' (by decide) (by decide))
  have e6 : runSub mLink1 (List.replicate n '#' ++ " Title".data) = _ :=
    runSub_id_of_not_mem _ _ (fun _ s' h' => mLink1_none h' s') (hmem '[' (by decide) (by decide))
  have e7 : runSub mLink2 (List.replicate n '#' ++ " Title".data) = _ :=
    runSub_id_of_not_mem _ _ (fun _ s' h' => mLink2_none h' s') (hmem '[' (by decide) (by decide))
  have e8 : runSub mBullet (List.replicate n '#' ++ " Title".data) = _ :=
    runSub_id_of_not_mem _ _ (fun _ s' h' => mBullet_none h' s') (hmem '*' (by decide) (by decide))
  have e9 : runSub mIndent (List.replicate n '#' ++ " Title".data)
      = List.replicate n '#' ++ " Title".data := by
    apply subScanF_mIndent_id _ true false
    obtain ⟨n', rfl⟩ : ∃ n', n = n' + 1 := ⟨n - 1, by omega⟩
    rw [List.replicate_succ, List.cons_append]
    apply noIndentAux_head_not_ws (by decide)
    rw [← List.cons_append, ← List.replicate_succ]
    exact hnl
  have e10 : runSub mHr (List.replicate n '#' ++ " Title".data) = _ :=
    runSub_id_of_not_mem _ _ (fun _ s' h' => mHr_none h' s') (hmem '-' (by decide) (by decide))
  have e11 : runSub mFrame (List.replicate n '#' ++ " Title".data)
      = List.replicate n '#' ++ " Title".data :=
    subScanF_id mFrame (fun t => '<' ∉ t ∧ '>' ∉ t)
      (fun _ _ hP => ⟨fun hm2 => hP.1 (List.mem_cons_of_mem _ hm2),
                      fun hm2 => hP.2 (List.mem_cons_of_mem _ hm2)⟩)
      (fun _ s' h' => mFrame_none h'.1 h'.2 s') _ _ _
      ⟨hmem '<' (by decide) (by decide), hmem '>' (by decide) (by decide)⟩
  have e12 : runSub mRow (List.replicate n '#' ++ " Title".data) = _ :=
    runSub_id_of_not_mem _ _ (fun _ s' h' => mRow_none h' s') (hmem '|' (by decide) (by decide))
  have e13 : runSub mHeader (List.replicate n '#' ++ " Title".data) = _ :=
    runSub_id_of_not_mem _ _ (fun _ s' h' => mHeader_none h' s') (hmem '|' (by decide) (by decide))
  have ec1 : runSub mClean1 (List.replicate n '#' ++ " Title".data) = _ :=
    runSub_id_of_not_mem _ _ (fun _ s' h' => mClean1_none h' s') (hmem '*' (by decide) (by decide))
  have ec2 : runSub mClean2 (List.replicate n '#' ++ " Title".data) = _ :=
    runSub_id_of_not_mem _ _ (fun _ s' h' => mClean2_none h' s') (hmem ':' (by decide) (by decide))
  have ec3 : runSub mClean3 (List.replicate n '#' ++ " Title".data) = _ :=
    runSub_id_of_not_mem _ _ (fun _ s' h' => mClean3_none h' s') (hmem '[' (by decide) (by decide))
  have hstrip : pyStrip (List.replicate n '#' ++ " Title".data)
      = List.replicate n '#' ++ " Title".data := by
    apply pyStrip_id
    · intro c hc
      obtain ⟨n', rfl⟩ : ∃ n', n = n' + 1 := ⟨n - 1, by omega⟩
      rw [List.replicate_succ, List.cons_append] at hc
      simp at hc
      rw [← hc]
      rfl
    · intro c hc
      rw [List.getLast?_append, show (" Title".data.getLast? : Option Char)
        = some 'e' from rfl] at hc
      simp at hc
      rw [← hc]
      rfl
  have hcrlf : replCRLF (List.replicate n '#' ++ " Title".data)
      = List.replicate n '#' ++ " Title".data :=
    replCRLF_id (hmem '\r' (by decide) (by decide))
  show String.mk (w2mCore (List.replicate n '+' ++ " Title".data) b) = _
  cases b with
  | false =>
    simp only [w2mCore, hstage1, e2, e3, e4, e5, e6, e7, e8, e9, e10, e11, e12,
      e13, Bool.false_eq_true, if_false, hstrip, hcrlf]
  | true =>
    simp only [w2mCore, hstage1, e2, e3, e4, e5, e6, e7, e8, e9, e10, e11, e12,
      e13, ec1, ec2, ec3, if_true, hstrip, hcrlf]

/-- Witness for C6 at `n = 3`. -/
theorem C6_heading_depth_witness :
    Wikidpad2Markdown "+++ Title" false = "### Title" := by
  have h := C6_heading_depth 3 (by norm_num) false
  have e1 : String.mk (List.replicate 3 '+' ++ " Title".data) = "+++ Title" := by decide
  have e2 : String.mk (List.replicate 3 '#' ++ " Title".data) = "### Title" := by decide
  rw [← e1, h, e2]

end W2M

/-! ## The piped-link rewrite (C3, amended) -/

namespace W2M

theorem lazyScan_brStop (bad : Char → Bool) (t r : List Char)
    (ht : ∀ x ∈ t, bad x = false ∧ x ≠ ']') :
    lazyScan bad brStop (t ++ ']' :: r) = some (t, ']' :: r) := by
  induction t with
  | nil => rfl
  | cons x t' ih =>
    have hx := ht x (List.mem_cons_self _ _)
    have hstop : brStop (x :: (t' ++ ']' :: r)) = false := by
      simp [brStop, hx.2]
    rw [List.cons_append]
    simp only [lazyScan, List.append_eq, hstop, hx.1, Bool.false_eq_true, if_false]
    rw [ih (fun y hy => ht y (List.mem_cons_of_mem _ hy))]

theorem linkTailStop_cons_ne {c : Char} (u : List Char) (hc : c ≠ '|') :
    linkTailStop (c :: u) = false := by
  rw [linkTailStop.eq_def]
  split
  · next u' heq =>
    injection heq with e1 _
    exact absurd e1 hc
  · rfl

theorem lazyScan_link1 (a t r : List Char)
    (ha : ∀ x ∈ a, x ≠ '#' ∧ x ≠ '|')
    (ht : ∀ x ∈ t, x ≠ '\n' ∧ x ≠ ']') :
    lazyScan (fun c => decide (c = '#')) linkTailStop (a ++ '|' :: t ++ ']' :: r)
      = some (a, '|' :: (t ++ ']' :: r)) := by
  induction a with
  | nil =>
    have hstop : linkTailStop ('|' :: (t ++ ']' :: r)) = true := by
      rw [linkTailStop.eq_def]
      simp only []
      rw [lazyScan_brStop (fun c => decide (c = '\n')) t r
        (fun y hy => ⟨by simp [(ht y hy).1], (ht y hy).2⟩)]
      rfl
    rw [List.nil_append, List.cons_append]
    simp only [lazyScan, List.append_eq, hstop, if_true]
  | cons x a' ih =>
    have hx := ha x (List.mem_cons_self _ _)
    rw [List.cons_append]
    simp only [lazyScan, List.append_eq, linkTailStop_cons_ne _ hx.2,
      decide_eq_false hx.1, Bool.false_eq_true, if_false]
    rw [ih (fun y hy => ha y (List.mem_cons_of_mem _ hy))]

theorem mLink1_span (a t r : List Char) (s : Bool)
    (ha : ∀ x ∈ a, x ≠ '#' ∧ x ≠ '|')
    (ht : ∀ x ∈ t, x ≠ '\n' ∧ x ≠ ']') :
    mLink1 ('[' :: (a ++ '|' :: t ++ ']' :: r)) s
      = some ('[' :: t ++ ']' :: '(' :: a ++ [')'],
              1 + a.length + 1 + t.length + 1) := by
  rw [mLink1.eq_def]
  simp only []
  rw [lazyScan_link1 a t r ha ht]
  simp only []
  rw [lazyScan_brStop (fun c => decide (c = '\n')) t r
    (fun y hy => ⟨by simp [(ht y hy).1], (ht y hy).2⟩)]



/-- The piped-link substitution on a bracketed span: helper shared by the
statements about the link stage. -/
theorem runSub_mLink1_span (a t r : List Char)
    (ha : ∀ x ∈ a, x ≠ '#' ∧ x ≠ '|') (ht : ∀ x ∈ t, x ≠ '\n' ∧ x ≠ ']') :
    runSub mLink1 ('[' :: (a ++ '|' :: t ++ ']' :: r))
      = '[' :: t ++ ']' :: '(' :: a ++ ')' :: runSub mLink1 r := by
  have hlen : ('[' :: (a ++ '|' :: t ++ ']' :: r)).length
      = (a.length + t.length + 2 + r.length) + 1 := by
    simp
    omega
  rw [runSub, hlen]
  rw [subScanF_cons_match mLink1 _ true '[' _ _ _
    (mLink1_span a t r true ha ht) (by omega)]
  have hP : '[' :: (a ++ '|' :: t ++ ']' :: r)
      = ('[' :: (a ++ '|' :: t) ++ [']']) ++ r := by
    simp
  have hPlen : ('[' :: (a ++ '|' :: t) ++ [']']).length
      = 1 + a.length + 1 + t.length + 1 := by
    simp
    omega
  have htake : ('[' :: (a ++ '|' :: t ++ ']' :: r)).take
      (1 + a.length + 1 + t.length + 1) = '[' :: (a ++ '|' :: t) ++ [']'] := by
    rw [hP, ← hPlen, List.take_left]
  have hdrop : ('[' :: (a ++ '|' :: t ++ ']' :: r)).drop
      (1 + a.length + 1 + t.length + 1) = r := by
    rw [hP, ← hPlen, List.drop_left]
  rw [htake, hdrop, List.getLast?_concat]
  rw [show decide ((some ']' : Option Char) = some '\n') = false from rfl]
  rw [subScanF_congr mLink1 (fun _ _ _ => rfl) _ r.length false true r
    (by omega) (Nat.le_refl _)]
  rw [← runSub]
  simp

/-- C3 (amended): in the link stage, a bracketed span `[address|title]` is
rewritten to `[title](address)` where the address is the run of
non-`#` characters up to the FIRST `|` (not the last) and the title is the
remainder up to the first `]` on the same line; the rest of the buffer is
then processed in the same way.  In particular
`"[http://x|Title]"` transforms to `"[Title](http://x)"`. -/
theorem C3_amended_link_rewrite :
    (∀ a t r : List Char,
      (∀ x ∈ a, x ≠ '#' ∧ x ≠ '|') → (∀ x ∈ t, x ≠ '\n' ∧ x ≠ ']') →
      runSub mLink1 ('[' :: (a ++ '|' :: t ++ ']' :: r))
        = '[' :: t ++ ']' :: '(' :: a ++ ')' :: runSub mLink1 r)
    ∧ Wikidpad2Markdown "[http://x|Title]" false = "[Title](http://x)" := by
  exact ⟨runSub_mLink1_span, by decide⟩

/-- Witness for the amended C3. -/
theorem C3_amended_link_rewrite_witness :
    runSub mLink1 "[u|v]w".data = "[v](u)w".data := by
  have h := C3_amended_link_rewrite.1 "u".data "v".data "w".data
    (by decide) (by decide)
  have e : "[u|v]w".data = '[' :: ("u".data ++ '|' :: "v".data ++ ']' :: "w".data) := by
    decide
  rw [e, h]
  decide

end W2M

/-! ## Converted piped links do not survive residual stripping (C9, amended) -/

namespace W2M

theorem lazyScan_none_of_stop_false (bad : Char → Bool) (stop : List Char → Bool) :
    ∀ u : List Char, (∀ v : List Char, v <:+ u → stop v = false) →
      lazyScan bad stop u = none := by
  intro u
  induction u with
  | nil =>
    intro h
    simp [lazyScan, h [] List.nil_suffix]
  | cons c cs ih =>
    intro h
    simp only [lazyScan, h (c :: cs) (List.suffix_refl _), Bool.false_eq_true,
      if_false]
    by_cases hb : bad c = true
    · simp [hb]
    · simp only [hb, Bool.false_eq_true, if_false]
      rw [ih (fun v hv => h v (hv.trans (List.suffix_cons c cs)))]

theorem anchorTailStop_mem {v : List Char} (h : anchorTailStop v = true) :
    '!' ∈ v := by
  rw [anchorTailStop.eq_def] at h
  split at h
  · simp
  · cases h

theorem mAnchor2_none_of_no_bang {l : List Char} (h : '!' ∉ l) (s : Bool) :
    mAnchor2 l s = none := by
  rw [mAnchor2.eq_def]
  split
  · next t =>
    have hn : lazyScan (fun c => decide (c = '\n')) anchorTailStop t = none := by
      apply lazyScan_none_of_stop_false
      intro v hv
      rw [Bool.eq_false_iff]
      intro hst
      exact h (List.mem_cons_of_mem _ (hv.subset (anchorTailStop_mem hst)))
    rw [hn]
  · rfl

theorem alnum_ne {c x : Char} (h : c.isAlphanum = true)
    (hx : x.isAlphanum = false) : c ≠ x := by
  intro he
  rw [he, hx] at h
  cases h

theorem alnum_not_ws {c : Char} (h : c.isAlphanum = true) : isWs c = false := by
  rw [Bool.eq_false_iff]
  intro hws
  rcases isWs_cases hws with rfl | rfl | rfl | rfl | rfl | rfl <;>
    exact absurd h (by decide)

theorem mem_span0_cases {a t : List Char} {x : Char}
    (hm : x ∈ '[' :: a ++ '|' :: t ++ [']']) :
    x = '[' ∨ x ∈ a ∨ x = '|' ∨ x ∈ t ∨ x = ']' := by
  simp only [List.mem_cons, List.mem_append, List.mem_singleton,
    List.not_mem_nil, or_false] at hm
  tauto

theorem not_mem_span0 {a t : List Char} (ha : ∀ x ∈ a, x.isAlphanum = true)
    (htt : ∀ x ∈ t, x.isAlphanum = true) {x : Char} (hx : x.isAlphanum = false)
    (h1 : x ≠ '[') (h2 : x ≠ '|') (h3 : x ≠ ']') :
    x ∉ '[' :: a ++ '|' :: t ++ [']'] := by
  intro hm
  rcases mem_span0_cases hm with rfl | h | rfl | h | rfl
  · exact h1 rfl
  · rw [ha x h] at hx; cases hx
  · exact h2 rfl
  · rw [htt x h] at hx; cases hx
  · exact h3 rfl

theorem mem_span1_cases {a t : List Char} {x : Char}
    (hm : x ∈ '[' :: t ++ ']' :: '(' :: a ++ [')']) :
    x = '[' ∨ x ∈ t ∨ x = ']' ∨ x = '(' ∨ x ∈ a ∨ x = ')' := by
  simp only [List.mem_cons, List.mem_append, List.mem_singleton,
    List.not_mem_nil, or_false] at hm
  tauto

theorem not_mem_span1 {a t : List Char} (ha : ∀ x ∈ a, x.isAlphanum = true)
    (htt : ∀ x ∈ t, x.isAlphanum = true) {x : Char} (hx : x.isAlphanum = false)
    (h1 : x ≠ '[') (h3 : x ≠ ']') (h4 : x ≠ '(') (h5 : x ≠ ')') :
    x ∉ '[' :: t ++ ']' :: '(' :: a ++ [')'] := by
  intro hm
  rcases mem_span1_cases hm with rfl | h | rfl | rfl | h | rfl
  · exact h1 rfl
  · rw [htt x h] at hx; cases hx
  · exact h3 rfl
  · exact h4 rfl
  · rw [ha x h] at hx; cases hx
  · exact h5 rfl

theorem noIndentAux_no_ws : ∀ (l : List Char), (∀ x ∈ l, isWs x = false) →
    ∀ s : Bool, noIndentAux s false l = true := by
  intro l
  induction l with
  | nil => intro _ _; rfl
  | cons c cs ih =>
    intro h s
    rw [noIndentAux]
    simp only [Bool.false_and, Bool.false_eq_true, if_false]
    rw [h c (List.mem_cons_self _ _), Bool.and_false]
    exact ih (fun x hx => h x (List.mem_cons_of_mem _ hx)) _

theorem runSub_mLink2_span (t rest2 : List Char)
    (htt : ∀ x ∈ t, x ≠ '#' ∧ x ≠ ']') (hrest : '[' ∉ rest2) :
    runSub mLink2 ('[' :: (t ++ ']' :: rest2)) = '[' :: (t ++ ']' :: rest2) := by
  have hm2 : mLink2 ('[' :: (t ++ ']' :: rest2)) true
      = some ('[' :: t ++ [']'], 2 + t.length) := by
    rw [mLink2.eq_def]
    simp only []
    rw [lazyScan_brStop (fun c => decide (c = '#')) t rest2
      (fun y hy => ⟨by simp [(htt y hy).1], (htt y hy).2⟩)]
  have hlen : ('[' :: (t ++ ']' :: rest2)).length
      = (t.length + 1 + rest2.length) + 1 := by
    simp
    omega
  rw [runSub, hlen]
  rw [subScanF_cons_match mLink2 _ true '[' _ _ _ hm2 (by omega)]
  have hP : '[' :: (t ++ ']' :: rest2) = ('[' :: t ++ [']']) ++ rest2 := by
    simp
  have hPlen : ('[' :: t ++ [']']).length = 2 + t.length := by
    simp
    omega
  have htake : ('[' :: (t ++ ']' :: rest2)).take (2 + t.length)
      = '[' :: t ++ [']'] := by
    rw [hP, ← hPlen, List.take_left]
  have hdrop : ('[' :: (t ++ ']' :: rest2)).drop (2 + t.length) = rest2 := by
    rw [hP, ← hPlen, List.drop_left]
  rw [htake, hdrop, List.getLast?_concat]
  rw [show decide ((some ']' : Option Char) = some '\n') = false from rfl]
  rw [subScanF_id mLink2 (fun u => '[' ∉ u)
    (fun _ _ hP' hm => hP' (List.mem_cons_of_mem _ hm))
    (fun _ s' h' => mLink2_none h' s') _ _ _ hrest]
  simp

theorem runSub_mClean3_span (t rest2 : List Char)
    (htt : ∀ x ∈ t, x ≠ '\n' ∧ x ≠ ']') (hrest : '[' ∉ rest2) :
    runSub mClean3 ('[' :: (t ++ ']' :: rest2)) = rest2 := by
  have hm3 : mClean3 ('[' :: (t ++ ']' :: rest2)) true
      = some ([], 2 + t.length) := by
    rw [mClean3.eq_def]
    simp only []
    rw [lazyScan_brStop (fun c => decide (c = '\n')) t rest2
      (fun y hy => ⟨by simp [(htt y hy).1], (htt y hy).2⟩)]
  have hlen : ('[' :: (t ++ ']' :: rest2)).length
      = (t.length + 1 + rest2.length) + 1 := by
    simp
    omega
  rw [runSub, hlen]
  rw [subScanF_cons_match mClean3 _ true '[' _ _ _ hm3 (by omega)]
  have hP : '[' :: (t ++ ']' :: rest2) = ('[' :: t ++ [']']) ++ rest2 := by
    simp
  have hPlen : ('[' :: t ++ [']']).length = 2 + t.length := by
    simp
    omega
  have htake : ('[' :: (t ++ ']' :: rest2)).take (2 + t.length)
      = '[' :: t ++ [']'] := by
    rw [hP, ← hPlen, List.take_left]
  have hdrop : ('[' :: (t ++ ']' :: rest2)).drop (2 + t.length) = rest2 := by
    rw [hP, ← hPlen, List.drop_left]
  rw [htake, hdrop, List.getLast?_concat]
  rw [show decide ((some ']' : Option Char) = some '\n') = false from rfl]
  rw [subScanF_id mClean3 (fun u => '[' ∉ u)
    (fun _ _ hP' hm => hP' (List.mem_cons_of_mem _ hm))
    (fun _ s' h' => mClean3_none h' s') _ _ _ hrest]
  simp

end W2M

namespace W2M

theorem mem_span2_cases {a : List Char} {x : Char}
    (hm : x ∈ '(' :: a ++ [')']) : x = '(' ∨ x ∈ a ∨ x = ')' := by
  simp only [List.mem_cons, List.mem_append, List.mem_singleton,
    List.not_mem_nil, or_false] at hm
  tauto

/-- C9 (amended): for an address and title made of alphanumeric characters
(which no earlier stage rewrites), the whole transform with
`strip_residual = true` maps `[address|title]` to `(address)`: the link
stage produces `[title](address)` and the residual bracket deletion then
removes `[title]`. -/
theorem C9_amended_stripped_link (a t : List Char)
    (ha : ∀ x ∈ a, x.isAlphanum = true) (htt : ∀ x ∈ t, x.isAlphanum = true) :
    Wikidpad2Markdown (String.mk ('[' :: a ++ '|' :: t ++ [']'])) true
      = String.mk ('(' :: a ++ [')']) := by
  have ha' : ∀ x ∈ a, x ≠ '#' ∧ x ≠ '|' := fun x hx =>
    ⟨alnum_ne (ha x hx) (by decide), alnum_ne (ha x hx) (by decide)⟩
  have ht' : ∀ x ∈ t, x ≠ '\n' ∧ x ≠ ']' := fun x hx =>
    ⟨alnum_ne (htt x hx) (by decide), alnum_ne (htt x hx) (by decide)⟩
  have htt2 : ∀ x ∈ t, x ≠ '#' ∧ x ≠ ']' := fun x hx =>
    ⟨alnum_ne (htt x hx) (by decide), alnum_ne (htt x hx) (by decide)⟩
  have hrest : '[' ∉ '(' :: a ++ [')'] := by
    intro hm
    rcases mem_span2_cases hm with h | h | h
    · cases h
    · exact absurd (ha _ h) (by decide)
    · cases h
  have hm0 : ∀ x : Char, x.isAlphanum = false → x ≠ '[' → x ≠ '|' → x ≠ ']' →
      x ∉ '[' :: a ++ '|' :: t ++ [']'] :=
    fun x hx h1 h2 h3 => not_mem_span0 ha htt hx h1 h2 h3
  have hm1 : ∀ x : Char, x.isAlphanum = false → x ≠ '[' → x ≠ ']' → x ≠ '(' →
      x ≠ ')' → x ∉ '[' :: t ++ ']' :: '(' :: a ++ [')'] :=
    fun x hx h1 h3 h4 h5 => not_mem_span1 ha htt hx h1 h3 h4 h5
  have A1 : runSub mHeading ('[' :: a ++ '|' :: t ++ [']']) = _ :=
    runSub_id_of_not_mem _ _ (fun _ s' h' => mHeading_none h' s')
      (hm0 '+' (by decide) (by decide) (by decide) (by decide))
  have A2 : runSub mBold ('[' :: a ++ '|' :: t ++ [']']) = _ :=
    runSub_id_of_not_mem _ _ (fun _ s' h' => mBold_none h' s')
      (hm0 '*' (by decide) (by decide) (by decide) (by decide))
  have A3 : runSub mItalic ('[' :: a ++ '|' :: t ++ [']']) = _ :=
    runSub_id_of_not_mem _ _ (fun _ s' h' => mItalic_none h' s')
      (hm0 '/' (by decide) (by decide) (by decide) (by decide))
  have A4 : runSub mAnchor1 ('[' :: a ++ '|' :: t ++ [']']) = _ :=
    runSub_id_of_not_mem _ _ (fun _ s' h' => mAnchor1_none h' s')
      (hm0 ':' (by decide) (by decide) (by decide) (by decide))
  have A5 : runSub mAnchor2 ('[' :: a ++ '|' :: t ++ [']']) = _ :=
    runSub_id_of_not_mem _ _ (fun _ s' h' => mAnchor2_none_of_no_bang h' s')
      (hm0 '!' (by decide) (by decide) (by decide) (by decide))
  have hsh : ('[' :: a ++ '|' :: t ++ [']'])
      = '[' :: (a ++ '|' :: t ++ ']' :: ([] : List Char)) := by
    simp
  have A6 : runSub mLink1 ('[' :: a ++ '|' :: t ++ [']'])
      = '[' :: t ++ ']' :: '(' :: a ++ [')'] := by
    rw [hsh, runSub_mLink1_span a t [] ha' ht']
    rfl
  have hS1 : ('[' :: t ++ ']' :: '(' :: a ++ [')'])
      = '[' :: (t ++ ']' :: ('(' :: a ++ [')'])) := by
    simp
  have A7 : runSub mLink2 ('[' :: t ++ ']' :: '(' :: a ++ [')'])
      = '[' :: t ++ ']' :: '(' :: a ++ [')'] := by
    rw [hS1, runSub_mLink2_span t ('(' :: a ++ [')']) htt2 hrest]
  have A8 : runSub mBullet ('[' :: t ++ ']' :: '(' :: a ++ [')']) = _ :=
    runSub_id_of_not_mem _ _ (fun _ s' h' => mBullet_none h' s')
      (hm1 '*' (by decide) (by decide) (by decide) (by decide) (by decide))
  have hwsall : ∀ x ∈ '[' :: t ++ ']' :: '(' :: a ++ [')'], isWs x = false := by
    intro x hx
    rcases mem_span1_cases hx with rfl | h | rfl | rfl | h | rfl
    · rfl
    · exact alnum_not_ws (htt x h)
    · rfl
    · rfl
    · exact alnum_not_ws (ha x h)
    · rfl
  have A9 : runSub mIndent ('[' :: t ++ ']' :: '(' :: a ++ [')']) = _ :=
    subScanF_mIndent_id _ true false _ (noIndentAux_no_ws _ hwsall true)
  have A10 : runSub mHr ('[' :: t ++ ']' :: '(' :: a ++ [')']) = _ :=
    runSub_id_of_not_mem _ _ (fun _ s' h' => mHr_none h' s')
      (hm1 '-' (by decide) (by decide) (by decide) (by decide) (by decide))
  have A11 : runSub mFrame ('[' :: t ++ ']' :: '(' :: a ++ [')'])
      = '[' :: t ++ ']' :: '(' :: a ++ [')'] :=
    subScanF_id mFrame (fun u => '<' ∉ u ∧ '>' ∉ u)
      (fun _ _ hP => ⟨fun hm2 => hP.1 (List.mem_cons_of_mem _ hm2),
                      fun hm2 => hP.2 (List.mem_cons_of_mem _ hm2)⟩)
      (fun _ s' h' => mFrame_none h'.1 h'.2 s') _ _ _
      ⟨hm1 '<' (by decide) (by decide) (by decide) (by decide) (by decide),
       hm1 '>' (by decide) (by decide) (by decide) (by decide) (by decide)⟩
  have A12 : runSub mRow ('[' :: t ++ ']' :: '(' :: a ++ [')']) = _ :=
    runSub_id_of_not_mem _ _ (fun _ s' h' => mRow_none h' s')
      (hm1 '|' (by decide) (by decide) (by decide) (by decide) (by decide))
  have A13 : runSub mHeader ('[' :: t ++ ']' :: '(' :: a ++ [')']) = _ :=
    runSub_id_of_not_mem _ _ (fun _ s' h' => mHeader_none h' s')
      (hm1 '|' (by decide) (by decide) (by decide) (by decide) (by decide))
  have Ac1 : runSub mClean1 ('[' :: t ++ ']' :: '(' :: a ++ [')']) = _ :=
    runSub_id_of_not_mem _ _ (fun _ s' h' => mClean1_none h' s')
      (hm1 '*' (by decide) (by decide) (by decide) (by decide) (by decide))
  have Ac2 : runSub mClean2 ('[' :: t ++ ']' :: '(' :: a ++ [')']) = _ :=
    runSub_id_of_not_mem _ _ (fun _ s' h' => mClean2_none h' s')
      (hm1 ':' (by decide) (by decide) (by decide) (by decide) (by decide))
  have Ac3 : runSub mClean3 ('[' :: t ++ ']' :: '(' :: a ++ [')'])
      = '(' :: a ++ [')'] := by
    rw [hS1]
    exact runSub_mClean3_span t ('(' :: a ++ [')']) ht' hrest
  have hS2 : ('(' :: a ++ [')'] : List Char) = '(' :: (a ++ [')']) := by simp
  have hstrip : pyStrip ('(' :: a ++ [')']) = '(' :: a ++ [')'] := by
    apply pyStrip_id
    · intro c hc
      rw [hS2] at hc
      simp only [List.head?_cons, Option.some.injEq] at hc
      rw [← hc]
      rfl
    · intro c hc
      rw [List.getLast?_concat] at hc
      simp only [Option.some.injEq] at hc
      rw [← hc]
      rfl
  have hcrlf : replCRLF ('(' :: a ++ [')']) = '(' :: a ++ [')'] := by
    apply replCRLF_id
    intro hm
    rcases mem_span2_cases hm with h | h | h
    · cases h
    · exact absurd (ha _ h) (by decide)
    · cases h
  show String.mk (w2mCore ('[' :: a ++ '|' :: t ++ [']']) true) = _
  simp only [w2mCore, A1, A2, A3, A4, A5, A6, A7, A8, A9, A10, A11, A12, A13,
    if_true, Ac1, Ac2, Ac3, hstrip, hcrlf]

/-- Witness for the amended C9. -/
theorem C9_amended_stripped_link_witness :
    Wikidpad2Markdown "[u|v]" true = "(u)" := by
  have h := C9_amended_stripped_link "u".data "v".data (by decide) (by decide)
  have e1 : String.mk ('[' :: "u".data ++ '|' :: "v".data ++ [']']) = "[u|v]" := by
    decide
  have e2 : String.mk ('(' :: "u".data ++ [')']) = "(u)" := by decide
  rw [← e1, h, e2]

end W2M
